import Mathlib

/-!
Verification of the delta-reduction core of llvm-reduce.

The development shallowly embeds the worked reduction pass
(RemoveFunctions.cpp: extractChunksFromModule and getTargetCount),
the driver tail of llvm-reduce.cpp (parseInputFile and main), and the
bisection engine described by the specification.  LLVM modules are
modelled as lists of functions whose bodies are lists of basic blocks
of instructions; the operand structure is kept just rich enough to
express use-replacement (replaceAllUsesWith) and callee resolution
(CallInst::getCalledFunction).

The C++ reads ChunksToKeep[I] with no bounds check; in the embedding a
vector access out of bounds is signalled by returning none, since the
C++ behaviour at that point is undefined.
-/

namespace LLVMReduce

/-- A chunk of 1-based target-unit indices, inclusive on both ends
(struct Chunk with int fields begin and end). -/
structure Chunk where
  begin_ : Int
  end_ : Int
deriving DecidableEq, Repr

/-- An operand of an instruction: a direct reference to a module-level
function, a function-local SSA value, or the undef placeholder. -/
inductive Operand where
  | func (name : String)
  | loc (name : String)
  | undef
deriving DecidableEq, Repr

/-- An instruction: a call (with its callee operand and arguments) or any
other instruction (with its operands).  Each instruction names its result. -/
inductive Instr where
  | call (result : String) (callee : Operand) (args : List Operand)
  | other (result : String) (ops : List Operand)
deriving DecidableEq, Repr

/-- A basic block is a sequence of instructions. -/
abbrev BasicBlock := List Instr

/-- A function: name, declaration flag (isDeclaration), and body.
Declarations have no body. -/
structure Function where
  name : String
  isDeclaration : Bool
  blocks : List BasicBlock
deriving DecidableEq, Repr

/-- A module is the sequence of its functions, in definition order. -/
abbrev Module := List Function

/-- The identity-relevant part of a function list: names and declaration
flags in order.  The reduction phases below are characterised by their
action on headers. -/
def headers (m : Module) : List (String × Bool) :=
  m.map (fun F => (F.name, F.isDeclaration))

/-- Number of non-declaration (defined) functions. -/
def countDefined (m : Module) : Nat :=
  (m.filter (fun F => !F.isDeclaration)).length

/-- In LLVM a module never holds two functions with the same name; the
embedding identifies functions by name and theorems that need identity
assume this invariant. -/
abbrev NamesUnique (m : Module) : Prop :=
  (m.map Function.name).Nodup

/-- Replace an operand equal to old by new (one step of replaceAllUsesWith). -/
def subst (old new o : Operand) : Operand :=
  if o = old then new else o

/-- Apply an operand transformation to every operand of an instruction. -/
def Instr.mapOperands (f : Operand → Operand) : Instr → Instr
  | .call r c a => .call r (f c) (a.map f)
  | .other r ops => .other r (ops.map f)

/-- Apply an operand transformation throughout a function body. -/
def Function.mapOperands (f : Operand → Operand) (F : Function) : Function :=
  { F with blocks := F.blocks.map (fun bb => bb.map (Instr.mapOperands f)) }

/-- F.replaceAllUsesWith(UndefValue::get(F.getType())) for the module-level
function named n: every operand referring to it becomes undef, module-wide. -/
def replaceFuncUsesWithUndef (n : String) (m : Module) : Module :=
  m.map (Function.mapOperands (subst (.func n) .undef))

/-- The chunk-selection loop of extractChunksFromModule: walks the functions
with cursor I into ChunksToKeep and 1-based counter FunctionCount over
defined functions, collecting the functions inside the current chunk.
The C++ reads ChunksToKeep[I] without a bounds check at every defined
function; when I is out of range the read is undefined behaviour, which the
embedding signals with none. -/
def selectKeepGo (ChunksToKeep : List Chunk) :
    List Function → Nat → Int → Option (List String)
  | [], _, _ => some []
  | F :: rest, I, FunctionCount =>
    if F.isDeclaration then
      selectKeepGo ChunksToKeep rest I FunctionCount
    else
      match ChunksToKeep.get? I with
      | none => none
      | some c =>
        let kept := decide (c.begin_ ≤ FunctionCount) && decide (FunctionCount ≤ c.end_)
        let I' := if c.end_ ≤ FunctionCount then I + 1 else I
        match selectKeepGo ChunksToKeep rest I' (FunctionCount + 1) with
        | none => none
        | some keep => some (if kept then F.name :: keep else keep)

/-- FuncsToKeep as computed by the first loop of extractChunksFromModule
(I = 0, FunctionCount = 1). -/
def selectKeep (ChunksToKeep : List Chunk) (m : Module) : Option (List String) :=
  selectKeepGo ChunksToKeep m 0 1

/-- The second loop of extractChunksFromModule, iterating the function
headers: every defined function not in FuncsToKeep has its uses replaced by
undef and is recorded in FuncsToRemove, in iteration order.  The C++ loop
iterates the module while rewriting its operands; operand rewriting leaves
every name and declaration flag unchanged, so iterating the snapshot of
headers is exact. -/
def rauwCollect (keep : List String) :
    List (String × Bool) → Module → Module × List String
  | [], m => (m, [])
  | (n, isDecl) :: rest, m =>
    if !isDecl && !(decide (n ∈ keep)) then
      let m' := replaceFuncUsesWithUndef n m
      let (m'', R) := rauwCollect keep rest m'
      (m'', n :: R)
    else
      rauwCollect keep rest m

/-- Erase the first function with the given name (F->eraseFromParent(),
with functions identified by name: see NamesUnique). -/
def eraseFirstFunc (n : String) : Module → Module
  | [] => []
  | F :: rest => if F.name = n then rest else F :: eraseFirstFunc n rest

/-- Erase the collected FuncsToRemove, in order. -/
def eraseFunctions (R : List String) (m : Module) : Module :=
  R.foldl (fun acc n => eraseFirstFunc n acc) m

/-- A call whose callee does not resolve to a Function
(Call->getCalledFunction() is null): its callee operand is undef, the
result of the earlier use-replacement, or a function-local value, an
indirect call. -/
def isUndefCall : Instr → Bool
  | .call _ (.func _) _ => false
  | .call _ _ _ => true
  | .other _ _ => false

/-- Name of an instruction result. -/
def Instr.result : Instr → String
  | .call r _ _ => r
  | .other r _ => r

/-- Results of the calls collected by the third loop (InstToRemove), in
block order. -/
def undefCallResults (F : Function) : List String :=
  ((F.blocks.flatten).filter isUndefCall).map Instr.result

/-- I.replaceAllUsesWith(UndefValue::get(I.getType())) for an instruction
result: uses of an instruction are always inside its own function. -/
def replaceLocUsesWithUndef (r : String) (F : Function) : Function :=
  Function.mapOperands (subst (.loc r) .undef) F

/-- Erase the collected instructions.  Replacing a function-local value by
undef never turns a callee into or out of a direct function reference, so
the instructions collected while rewriting are exactly the undef calls of
the rewritten body. -/
def eraseUndefCalls (F : Function) : Function :=
  { F with blocks := F.blocks.map (fun bb => bb.filter (fun i => !isUndefCall i)) }

/-- The third and fourth loops of extractChunksFromModule on one function:
replace every use of every unresolvable call by undef, then erase those
calls. -/
def sweepFunction (F : Function) : Function :=
  eraseUndefCalls
    ((undefCallResults F).foldl (fun acc r => replaceLocUsesWithUndef r acc) F)

/-- The dead-call sweep over the whole module. -/
def sweepModule (m : Module) : Module :=
  m.map sweepFunction

/-- CloneModule: a structurally identical copy; with value semantics the
copy is the value itself. -/
def cloneModule (m : Module) : Module := m

/-- RemoveFunctions::extractChunksFromModule.  Clones the module, collects
the defined functions inside the desired chunks, replaces the uses of the
out-of-chunk definitions with undef and erases them, then deletes the
instructions with unresolvable callees.  none signals the out-of-bounds
ChunksToKeep[I] read (undefined behaviour in the C++). -/
def extractChunksFromModule (ChunksToKeep : List Chunk) (Program : Module) :
    Option Module :=
  let Clone := cloneModule Program
  match selectKeep ChunksToKeep Clone with
  | none => none
  | some FuncsToKeep =>
    let (patched, FuncsToRemove) :=
      rauwCollect FuncsToKeep (headers Clone) Clone
    let erased := eraseFunctions FuncsToRemove patched
    some (sweepModule erased)

/-- State-passing form of extractChunksFromModule: alongside the candidate
it returns the final state of the input module.  Every mutation in the C++
acts on Clone, so the input comes back unchanged. -/
def extractChunksFromModuleS (ChunksToKeep : List Chunk) (Program : Module) :
    Option Module × Module :=
  (extractChunksFromModule ChunksToKeep Program, Program)

/-- The counting loop of RemoveFunctions::getTargetCount. -/
def getTargetCountGo : List Function → Int → Int
  | [], FunctionCount => FunctionCount
  | F :: rest, FunctionCount =>
    getTargetCountGo rest (if !F.isDeclaration then FunctionCount + 1 else FunctionCount)

/-- RemoveFunctions::getTargetCount: counts the non-declaration functions
(the index/name lines it prints are elided). -/
def getTargetCount (Program : Module) : Int :=
  getTargetCountGo Program 0

/-- State-passing form of getTargetCount: the loop only reads the module,
so the state comes back unchanged. -/
def getTargetCountS (Program : Module) : Int × Module :=
  (getTargetCount Program, Program)

/-! Specification-side descriptions, to be compared with the embedded code. -/

/-- A 1-based index lies inside some chunk of the list. -/
def inSomeChunk (chunks : List Chunk) (i : Int) : Bool :=
  chunks.any (fun c => decide (c.begin_ ≤ i) && decide (i ≤ c.end_))

/-- Names of the defined functions whose index lies inside some chunk,
read off the header list with FC the index of the next defined function. -/
def keptNamesSpec (chunks : List Chunk) :
    List (String × Bool) → Int → List String
  | [], _ => []
  | (n, isDecl) :: rest, FC =>
    if isDecl then keptNamesSpec chunks rest FC
    else if inSomeChunk chunks FC then n :: keptNamesSpec chunks rest (FC + 1)
    else keptNamesSpec chunks rest (FC + 1)

/-- The function list with every out-of-chunk defined function dropped:
declarations are always retained, a defined function is retained exactly
when its 1-based definition-order index lies inside some chunk. -/
def keepFilterSpecGo (chunks : List Chunk) : List Function → Int → List Function
  | [], _ => []
  | F :: rest, FC =>
    if F.isDeclaration then F :: keepFilterSpecGo chunks rest FC
    else if inSomeChunk chunks FC then F :: keepFilterSpecGo chunks rest (FC + 1)
    else keepFilterSpecGo chunks rest (FC + 1)

/-- keepFilterSpecGo started at index 1. -/
def keepFilterSpec (chunks : List Chunk) (m : Module) : Module :=
  keepFilterSpecGo chunks m 1

/-- Names of the defined functions outside FuncsToKeep, read off a header
list (the contents of FuncsToRemove). -/
def removeNamesSpec (keep : List String) (hdrs : List (String × Bool)) :
    List String :=
  (hdrs.filter (fun p => !p.2 && !(decide (p.1 ∈ keep)))).map Prod.fst

/-- Simultaneous patching: an operand referring to any function of R
becomes undef, all at once. -/
def patchOperand (R : List String) (o : Operand) : Operand :=
  match o with
  | .func n => if n ∈ R then .undef else o
  | _ => o

/-- Patch every use of every function of R throughout the module, before
anything is erased. -/
def patchAllUses (R : List String) (m : Module) : Module :=
  m.map (Function.mapOperands (patchOperand R))

/-- Simultaneous form of the result-patching of the dead-call sweep. -/
def patchLocOperand (rs : List String) (o : Operand) : Operand :=
  match o with
  | .loc r => if r ∈ rs then .undef else o
  | _ => o

/-- The dead-call sweep of one function in the phased form the spec
describes: replace the results of all unresolvable calls by undef at once,
then delete those calls. -/
def sweepFunctionPhased (F : Function) : Function :=
  eraseUndefCalls (Function.mapOperands (patchLocOperand (undefCallResults F)) F)

/-- reduce in the phased form the specification describes: clone, select
the kept functions, patch every dangling reference to a placeholder, only
then erase all the out-of-chunk definitions, and only after that run the
dead-call sweep. -/
def reducePhased (ChunksToKeep : List Chunk) (Program : Module) :
    Option Module :=
  let Clone := cloneModule Program
  match selectKeep ChunksToKeep Clone with
  | none => none
  | some FuncsToKeep =>
    let R := removeNamesSpec FuncsToKeep (headers Clone)
    let patched := patchAllUses R Clone
    let erased := eraseFunctions R patched
    some (erased.map sweepFunctionPhased)

/-! The driver (llvm-reduce.cpp). -/

/-- Observable driver actions of main, in program order. -/
inductive DriverEvent where
  | printedParseError
  | printedBrokenModule
  | createdTmpDir
  | ranDeltaPasses (programPresent : Bool)
  | printedCouldNotReduce
  | copiedFile (src : String) (dest : String)
  | printedDoneReducing (path : String)
deriving DecidableEq, Repr

/-- Outcome of parseIRFile followed by verifyModule on the input file. -/
inductive ParseOutcome where
  | parseFails
  | verifyFails (m : Module)
  | ok (m : Module)
deriving DecidableEq, Repr

/-- parseInputFile: a failed parse prints the diagnostic and returns null;
a parsed module that fails the verifier prints the broken-module error and
returns null; otherwise the module is returned. -/
def parseInputFile : ParseOutcome → Option Module × List DriverEvent
  | .parseFails => (none, [.printedParseError])
  | .verifyFails _ => (none, [.printedBrokenModule])
  | .ok m => (some m, [])

/-- Modelled from the spec: the filename component of a path, as computed
by the path library the driver calls (the component after the last
separator); that library is not among the sources. -/
def pathFilename (s : String) : String :=
  String.mk (s.data.foldl (fun acc c => if c = '/' then [] else acc ++ [c]) [])

/-- Lines 105-119 of main: compare the filename component of the reduced
filepath with the input filename; on equality report that the input could
not be reduced, otherwise resolve the output name (the input itself for
in-place, reduced.ll when no name was given, the given name with .ll
appended otherwise), copy the reduced file there and report it. -/
def driverFinishEvents (InputFilename : String) (ReplaceInput : Bool)
    (OutputFilename : String) (ReducedFilepath : String) : List DriverEvent :=
  if pathFilename ReducedFilepath = InputFilename then
    [.printedCouldNotReduce]
  else
    let out :=
      if ReplaceInput then InputFilename
      else if OutputFilename = "" then "reduced.ll"
      else OutputFilename ++ ".ll"
    [.copiedFile ReducedFilepath out, .printedDoneReducing out]

/-- main, as an event trace.  The parse result is consumed with no null
check: the temporary directory is created, the program (possibly null) is
installed in the test runner and runDeltaPasses is invoked regardless.
ReducedFilepath stands for Tester.getReducedFilepath() after the passes
(the test runner is not among the sources). -/
def mainFlow (p : ParseOutcome) (InputFilename : String) (ReplaceInput : Bool)
    (OutputFilename : String) (ReducedFilepath : String) : List DriverEvent :=
  let (OriginalProgram, ev) := parseInputFile p
  ev ++ [.createdTmpDir, .ranDeltaPasses OriginalProgram.isSome]
     ++ driverFinishEvents InputFilename ReplaceInput OutputFilename ReducedFilepath

/-! The bisection engine (section 4.4 of the specification).  The file
implementing it is not among the sources; it is modelled from the spec. -/

/-- Modelled from the spec: computeChunks(N, K) splits [1, N] into K
contiguous ranges as evenly as possible (section 4.1); the source file
holding it is not under the sources. -/
def computeChunks (N K : Nat) : List Chunk :=
  (List.range K).map (fun i : Nat =>
    { begin_ := ((i * N / K : Nat) : Int) + 1,
      end_ := (((i + 1) * N / K : Nat) : Int) })

/-- Modelled from the spec: the reduction-pass capability of section 4.2,
two operations polymorphic over the artifact type. -/
structure Pass (α : Type) where
  countTargets : α → Nat
  reduce : α → List Chunk → α

/-- The kept-chunk sets tried by one sweep: for each chunk, every other
chunk retained. -/
def keptSets (chunks : List Chunk) : List (List Chunk) :=
  (List.range chunks.length).map (fun i => chunks.eraseIdx i)

/-- Modelled from the spec: one sweep of step 3b, trying each kept set in
order and returning the first interesting candidate. -/
def trySweep {α : Type} (P : Pass α) (oracle : α → Bool) (best : α) :
    List (List Chunk) → Option α
  | [] => none
  | kept :: rest =>
    let candidate := P.reduce best kept
    if oracle candidate then some candidate else trySweep P oracle best rest

/-- Modelled from the spec: the bisection loop of section 4.4 with explicit
fuel (none signals fuel exhaustion, never a verdict).  On a successful
removal the best is replaced and the granularity resets to 2; after a fully
unsuccessful sweep the granularity doubles; the loop ends when K exceeds
the target count. -/
def engineGo {α : Type} (P : Pass α) (oracle : α → Bool) :
    Nat → α → Nat → Option α
  | 0, _, _ => none
  | fuel + 1, best, K =>
    let N := P.countTargets best
    if K ≤ N then
      match trySweep P oracle best (keptSets (computeChunks N K)) with
      | some newBest => engineGo P oracle fuel newBest 2
      | none => engineGo P oracle fuel best (K * 2)
    else
      some best

/-- Modelled from the spec: the engine for a single pass, starting at the
coarsest useful granularity K = 2. -/
def engine {α : Type} (P : Pass α) (oracle : α → Bool) (fuel : Nat) (best : α) :
    Option α :=
  engineGo P oracle fuel best 2

/-- The pass contract the spec imposes on reduce as the engine uses it:
dropping one chunk of a partition computed at a granularity within bounds
strictly decreases the target count. -/
def PassDec {α : Type} (P : Pass α) : Prop :=
  ∀ (a : α) (K i : Nat), 2 ≤ K → K ≤ P.countTargets a → i < K →
    P.countTargets (P.reduce a ((computeChunks (P.countTargets a) K).eraseIdx i))
      < P.countTargets a

/-! Concrete inputs used to exercise the theorems. -/

/-- A module with a single defined function. -/
def oneFunModule : Module := [⟨"f", false, [[]]⟩]

/-- Two defined functions, the second calling the first. -/
def twoFunModule : Module :=
  [⟨"f1", false, [[]]⟩, ⟨"f2", false, [[.call "r" (.func "f1") []]]⟩]

/-- Three defined functions with no cross-references. -/
def threeFunModule : Module :=
  [⟨"g1", false, [[]]⟩, ⟨"g2", false, [[]]⟩, ⟨"g3", false, [[]]⟩]

/-- Three defined functions and a declaration, with cross-references: f2
calls f1 and uses the result, f3 refers to f2. -/
def mixedModule : Module :=
  [⟨"f1", false, [[]]⟩,
   ⟨"d1", true, []⟩,
   ⟨"f2", false, [[.call "r" (.func "f1") [], .other "s" [.loc "r"]]]⟩,
   ⟨"f3", false, [[.other "t" [.func "f2"]]]⟩]

/-- A single defined function holding an indirect call (callee is the
local value p) whose result feeds another instruction. -/
def indirectCallModule : Module :=
  [⟨"f", false, [[.call "r" (.loc "p") [], .other "s" [.loc "r"]]]⟩]

/-- What the pass makes of indirectCallModule under full coverage: the
indirect call is swept and its use is patched to undef. -/
def indirectCallReduced : Module :=
  [⟨"f", false, [[.other "s" [.undef]]]⟩]

/-- A pass on bare counts: the artifact is its own target count and any
removal drops one unit.  It satisfies the engine contract. -/
def natPass : Pass Nat :=
  ⟨fun a => a, fun a _ => a - 1⟩

/-! Basic lemmas about the phases. -/

theorem getTargetCountGo_eq (fs : List Function) :
    ∀ acc : Int, getTargetCountGo fs acc = acc + (countDefined fs : Int) := by
  induction fs with
  | nil => intro acc; simp [getTargetCountGo, countDefined]
  | cons F rest ih =>
    intro acc
    by_cases h : F.isDeclaration = true <;>
      simp [getTargetCountGo, countDefined, List.filter, h, ih] <;>
      simp [countDefined] at ih <;> omega

theorem getTargetCount_eq_countDefined (m : Module) :
    getTargetCount m = (countDefined m : Int) := by
  simpa using getTargetCountGo_eq m 0

theorem headers_mapOperands (f : Operand → Operand) (m : Module) :
    headers (m.map (Function.mapOperands f)) = headers m := by
  simp [headers, List.map_map, Function.mapOperands]

theorem headers_replaceFuncUsesWithUndef (n : String) (m : Module) :
    headers (replaceFuncUsesWithUndef n m) = headers m :=
  headers_mapOperands _ m

theorem headers_patchAllUses (R : List String) (m : Module) :
    headers (patchAllUses R m) = headers m :=
  headers_mapOperands _ m

theorem instr_mapOperands_id (i : Instr) : Instr.mapOperands id i = i := by
  cases i <;> simp [Instr.mapOperands]

theorem function_mapOperands_id (F : Function) : Function.mapOperands id F = F := by
  cases F with
  | mk n d bbs =>
    simp only [Function.mapOperands]
    congr 1
    calc bbs.map (fun bb => bb.map (Instr.mapOperands id))
        = bbs.map (fun bb => bb) := by
          apply List.map_congr_left
          intro bb _
          calc bb.map (Instr.mapOperands id) = bb.map (fun i => i) := by
                apply List.map_congr_left
                intro i _
                exact instr_mapOperands_id i
            _ = bb := by simp
      _ = bbs := by simp

theorem foldl_replaceLoc_name (rs : List String) :
    ∀ F : Function,
      (rs.foldl (fun acc r => replaceLocUsesWithUndef r acc) F).name = F.name ∧
      (rs.foldl (fun acc r => replaceLocUsesWithUndef r acc) F).isDeclaration
        = F.isDeclaration := by
  induction rs with
  | nil => intro F; simp
  | cons r rs ih =>
    intro F
    rw [List.foldl_cons]
    refine ⟨(ih _).1.trans ?_, (ih _).2.trans ?_⟩ <;>
      simp [replaceLocUsesWithUndef, Function.mapOperands]

theorem sweepFunction_name_decl (F : Function) :
    (sweepFunction F).name = F.name ∧
      (sweepFunction F).isDeclaration = F.isDeclaration := by
  simp only [sweepFunction, eraseUndefCalls]
  exact ⟨(foldl_replaceLoc_name _ F).1, (foldl_replaceLoc_name _ F).2⟩

theorem headers_sweepModule (m : Module) :
    headers (sweepModule m) = headers m := by
  simp only [headers, sweepModule, List.map_map]
  apply List.map_congr_left
  intro F _
  simp [(sweepFunction_name_decl F).1, (sweepFunction_name_decl F).2]

theorem instr_mapOperands_comp (f g : Operand → Operand) (i : Instr) :
    Instr.mapOperands f (Instr.mapOperands g i) =
      Instr.mapOperands (fun o => f (g o)) i := by
  cases i <;> simp [Instr.mapOperands, List.map_map, Function.comp_def]

theorem mapOperands_comp (f g : Operand → Operand) (F : Function) :
    Function.mapOperands f (Function.mapOperands g F) =
      Function.mapOperands (fun o => f (g o)) F := by
  cases F with
  | mk n d bbs =>
    simp only [Function.mapOperands, List.map_map]
    congr 1
    apply List.map_congr_left
    intro bb _
    simp only [Function.comp_apply, List.map_map]
    apply List.map_congr_left
    intro i _
    simp only [Function.comp_apply, instr_mapOperands_comp]

theorem mapOperands_congr (f g : Operand → Operand) (h : f = g) (F : Function) :
    Function.mapOperands f F = Function.mapOperands g F := by rw [h]

theorem patchOperand_nil : patchOperand [] = id := by
  funext o
  cases o <;> simp [patchOperand]

theorem patchOperand_cons (n : String) (R : List String) :
    (fun o => patchOperand R (subst (.func n) .undef o)) = patchOperand (n :: R) := by
  funext o
  cases o with
  | func n' =>
    by_cases h : n' = n
    · simp [subst, patchOperand, h]
    · simp only [subst, patchOperand]
      have : (Operand.func n' = Operand.func n) = False := by
        simp [Operand.func.injEq, h]
      simp [this, List.mem_cons, h, patchOperand]
  | loc r => simp [subst, patchOperand]
  | undef => simp [subst, patchOperand]

theorem foldl_rauw_eq_patchAllUses (R : List String) :
    ∀ m : Module,
      R.foldl (fun acc n => replaceFuncUsesWithUndef n acc) m = patchAllUses R m := by
  induction R with
  | nil =>
    intro m
    simp only [List.foldl_nil, patchAllUses, patchOperand_nil]
    rw [List.map_congr_left (fun F _ => function_mapOperands_id F)]
    simp
  | cons n R ih =>
    intro m
    rw [List.foldl_cons, ih, patchAllUses, replaceFuncUsesWithUndef, List.map_map]
    apply List.map_congr_left
    intro F _
    rw [Function.comp_apply, mapOperands_comp, mapOperands_congr _ _ (patchOperand_cons n R)]

theorem rauwCollect_eq (keep : List String) (hdrs : List (String × Bool)) :
    ∀ m : Module,
      rauwCollect keep hdrs m =
        ((removeNamesSpec keep hdrs).foldl
            (fun acc n => replaceFuncUsesWithUndef n acc) m,
          removeNamesSpec keep hdrs) := by
  induction hdrs with
  | nil => intro m; simp [rauwCollect, removeNamesSpec]
  | cons p rest ih =>
    intro m
    obtain ⟨n, isDecl⟩ := p
    by_cases h1 : isDecl = true
    · simp [rauwCollect, removeNamesSpec, h1, List.filter_cons, ih]
    · by_cases h2 : n ∈ keep
      · simp [rauwCollect, removeNamesSpec, h1, h2, List.filter_cons, ih]
      · simp [rauwCollect, removeNamesSpec, h1, h2, List.filter_cons, ih]

theorem namesUnique_filter (p : Function → Bool) (m : Module)
    (h : NamesUnique m) : NamesUnique (m.filter p) := by
  apply List.Nodup.sublist _ h
  exact List.Sublist.map Function.name (List.filter_sublist m)

theorem eraseFirstFunc_eq_filter (n : String) :
    ∀ m : Module, NamesUnique m →
      eraseFirstFunc n m = m.filter (fun F => F.name ≠ n) := by
  intro m
  induction m with
  | nil => intro _; simp [eraseFirstFunc]
  | cons F rest ih =>
    intro h
    rw [NamesUnique, List.map_cons, List.nodup_cons] at h
    by_cases hn : F.name = n
    · have e1 : eraseFirstFunc n (F :: rest) = rest := by
        simp [eraseFirstFunc, hn]
      have e2 : (F :: rest).filter (fun F => decide (F.name ≠ n)) =
          rest.filter (fun F => decide (F.name ≠ n)) := by
        simp [List.filter_cons, hn]
      rw [e1, e2]
      symm
      rw [List.filter_eq_self]
      intro a ha
      simp only [ne_eq, decide_not, Bool.not_eq_eq_eq_not, Bool.not_true,
        decide_eq_false_iff_not]
      intro han
      apply h.1
      have hm : a.name ∈ rest.map Function.name := List.mem_map_of_mem Function.name ha
      rw [han] at hm
      rw [hn]
      exact hm
    · have e1 : eraseFirstFunc n (F :: rest) = F :: eraseFirstFunc n rest := by
        simp [eraseFirstFunc, hn]
      have e2 : (F :: rest).filter (fun F => decide (F.name ≠ n)) =
          F :: rest.filter (fun F => decide (F.name ≠ n)) := by
        simp [List.filter_cons, hn]
      rw [e1, e2, ih h.2]

theorem eraseFunctions_eq_filter (R : List String) :
    ∀ m : Module, NamesUnique m →
      eraseFunctions R m = m.filter (fun F => !decide (F.name ∈ R)) := by
  induction R with
  | nil =>
    intro m _
    simp only [eraseFunctions, List.foldl_nil]
    symm
    rw [List.filter_eq_self]
    intro a _
    simp
  | cons n R ih =>
    intro m h
    have step : eraseFunctions (n :: R) m = eraseFunctions R (eraseFirstFunc n m) := by
      simp [eraseFunctions, List.foldl_cons]
    rw [step, eraseFirstFunc_eq_filter n m h,
      ih _ (namesUnique_filter _ m h), List.filter_filter]
    apply List.filter_congr
    intro F _
    by_cases h1 : F.name = n
    · simp [h1]
    · by_cases h2 : F.name ∈ R <;> simp [h1, h2]

theorem patchLocOperand_nil : patchLocOperand [] = id := by
  funext o
  cases o <;> simp [patchLocOperand]

theorem patchLocOperand_cons (r : String) (rs : List String) :
    (fun o => patchLocOperand rs (subst (.loc r) .undef o)) =
      patchLocOperand (r :: rs) := by
  funext o
  cases o with
  | func n' => simp [subst, patchLocOperand]
  | loc r' =>
    by_cases h : r' = r
    · simp [subst, patchLocOperand, h]
    · simp only [subst, patchLocOperand]
      have : (Operand.loc r' = Operand.loc r) = False := by
        simp [Operand.loc.injEq, h]
      simp [this, List.mem_cons, h, patchLocOperand]
  | undef => simp [subst, patchLocOperand]

theorem foldl_replaceLoc_eq (rs : List String) :
    ∀ F : Function,
      rs.foldl (fun acc r => replaceLocUsesWithUndef r acc) F =
        Function.mapOperands (patchLocOperand rs) F := by
  induction rs with
  | nil =>
    intro F
    simp only [List.foldl_nil, patchLocOperand_nil]
    exact (function_mapOperands_id F).symm
  | cons r rs ih =>
    intro F
    rw [List.foldl_cons]
    show rs.foldl (fun acc r => replaceLocUsesWithUndef r acc)
        (replaceLocUsesWithUndef r F) = _
    rw [ih, replaceLocUsesWithUndef, mapOperands_comp,
      mapOperands_congr _ _ (patchLocOperand_cons r rs)]

theorem sweepFunction_eq_phased (F : Function) :
    sweepFunction F = sweepFunctionPhased F := by
  rw [sweepFunction, sweepFunctionPhased, foldl_replaceLoc_eq]

/-- C3: the reduction is two-phase in the order the spec requires.  The
embedded extractChunksFromModule, whose second loop interleaves
use-replacement with the collection of FuncsToRemove, coincides with the
phased description: every use of every out-of-chunk definition is patched
to undef before a single definition is erased, all definitions are erased
next, and the dead-call sweep (itself patch-then-delete) runs only after
every erasure, on every input. -/
theorem extractChunks_eq_reducePhased (ChunksToKeep : List Chunk) (Program : Module) :
    extractChunksFromModule ChunksToKeep Program = reducePhased ChunksToKeep Program := by
  rw [extractChunksFromModule, reducePhased]
  cases hsel : selectKeep ChunksToKeep (cloneModule Program) with
  | none => rfl
  | some K =>
    simp only [rauwCollect_eq, foldl_rauw_eq_patchAllUses, sweepModule]
    congr 1
    apply List.map_congr_left
    intro F _
    exact sweepFunction_eq_phased F

/-! The chunk-selection loop.  Under the well-formedness side conditions the
loop computes exactly membership of the running defined-function index in
some chunk; without the coverage condition the loop reads ChunksToKeep out
of bounds. -/

/-- Chunks are within bounds and each is a nonempty range. -/
abbrev chunksWithin (chunks : List Chunk) (N : Int) : Prop :=
  ∀ c ∈ chunks, 1 ≤ c.begin_ ∧ c.begin_ ≤ c.end_ ∧ c.end_ ≤ N

/-- Ascending and non-overlapping: each chunk ends strictly before the next
begins. -/
abbrev chunksAscending (chunks : List Chunk) : Prop :=
  chunks.Pairwise (fun a b => a.end_ < b.begin_)

/-- The last chunk reaches the last defined-function index (vacuous when
there is nothing to index).  Without this the selection loop of the C++
walks its cursor past the end of ChunksToKeep. -/
abbrev chunksCoverLast (chunks : List Chunk) (N : Int) : Prop :=
  N ≤ 0 ∨ ∃ c, chunks.getLast? = some c ∧ N ≤ c.end_

theorem selectKeepGo_eq (chunks : List Chunk) (N : Int)
    (hwf : chunksWithin chunks N)
    (hasc : chunksAscending chunks)
    (hcov : chunksCoverLast chunks N) :
    ∀ (fs : List Function) (I : Nat) (FC : Int),
      1 ≤ FC →
      FC + (countDefined fs : Int) = N + 1 →
      (∀ (j : Nat) (c : Chunk), j < I → chunks.get? j = some c → c.end_ < FC) →
      (∀ c : Chunk, chunks.get? I = some c → FC ≤ c.end_) →
      selectKeepGo chunks fs I FC = some (keptNamesSpec chunks (headers fs) FC) := by
  intro fs
  induction fs with
  | nil => intro I FC _ _ _ _; simp [selectKeepGo, keptNamesSpec, headers]
  | cons F rest ih =>
    intro I FC hFC hN inv1 inv2
    by_cases hd : F.isDeclaration
    · have e1 : selectKeepGo chunks (F :: rest) I FC = selectKeepGo chunks rest I FC := by
        simp [selectKeepGo, hd]
      have e2 : keptNamesSpec chunks (headers (F :: rest)) FC =
          keptNamesSpec chunks (headers rest) FC := by
        simp [headers, keptNamesSpec, hd]
      have hc0 : countDefined (F :: rest) = countDefined rest := by
        simp [countDefined, List.filter_cons, hd]
      rw [e1, e2]
      apply ih I FC hFC _ inv1 inv2
      rw [hc0] at hN
      exact hN
    · have hc1 : countDefined (F :: rest) = countDefined rest + 1 := by
        simp [countDefined, List.filter_cons, hd]
      rw [hc1] at hN
      push_cast at hN
      cases hcI : chunks.get? I with
      | none =>
        exfalso
        have hlen : chunks.length ≤ I := List.get?_eq_none.mp hcI
        rcases hcov with hN0 | ⟨clast, hlast, hle⟩
        · omega
        · have hne : chunks ≠ [] := by
            intro he
            rw [he] at hlast
            simp at hlast
          have hlast2 : chunks.getLast? = some (chunks.getLast hne) :=
            List.getLast?_eq_getLast_of_ne_nil hne
          rw [hlast2] at hlast
          have hlpos : 0 < chunks.length := List.length_pos.mpr hne
          have hgetl : chunks.getLast hne =
              chunks.get ⟨chunks.length - 1, by omega⟩ := List.getLast_eq_get chunks hne
          have hq : chunks.get? (chunks.length - 1) =
              some (chunks.get ⟨chunks.length - 1, by omega⟩) :=
            List.get?_eq_get (by omega)
          have hend : (chunks.get ⟨chunks.length - 1, by omega⟩).end_ < FC :=
            inv1 _ _ (by omega) hq
          have : clast = chunks.getLast hne := (Option.some.inj hlast).symm
          rw [this, hgetl] at hle
          omega
      | some c =>
        have hIlt : I < chunks.length := (List.get?_eq_some.mp hcI).1
        have hcmem : c ∈ chunks := List.get?_mem hcI
        have hFCle : FC ≤ c.end_ := inv2 c hcI
        have hmem : inSomeChunk chunks FC =
            (decide (c.begin_ ≤ FC) && decide (FC ≤ c.end_)) := by
          by_cases hin : c.begin_ ≤ FC
          · have hrhs : (decide (c.begin_ ≤ FC) && decide (FC ≤ c.end_)) = true := by
              simp [hin, hFCle]
            rw [hrhs, inSomeChunk, List.any_eq_true]
            exact ⟨c, hcmem, by simp [hin, hFCle]⟩
          · have hrhs : (decide (c.begin_ ≤ FC) && decide (FC ≤ c.end_)) = false := by
              simp [hin]
            rw [hrhs]
            rw [inSomeChunk]
            apply List.any_eq_false.mpr
            intro c' hc'
            simp only [Bool.and_eq_true, decide_eq_true_eq, not_and]
            intro hb he
            rcases List.mem_iff_get.mp hc' with ⟨⟨j, hj⟩, hget⟩
            rcases lt_trichotomy j I with hjI | hjI | hjI
            · have : c'.end_ < FC := by
                apply inv1 j c' hjI
                rw [← hget]
                exact List.get?_eq_get hj
              omega
            · subst hjI
              have : some c' = some c := by
                rw [← hcI, ← hget]
                exact (List.get?_eq_get hj).symm
              have hc'c : c' = c := Option.some.inj this
              rw [hc'c] at hb
              exact hin hb
            · have hpw : c.end_ < c'.begin_ := by
                have := List.pairwise_iff_get.mp hasc ⟨I, hIlt⟩ ⟨j, hj⟩ hjI
                rw [hget] at this
                have hgI : chunks.get ⟨I, hIlt⟩ = c := by
                  have := List.get?_eq_get hIlt
                  rw [hcI] at this
                  exact (Option.some.inj this).symm
                rw [hgI] at this
                exact this
              omega
        have hcI2 : chunks[I]? = some c := by
          rw [← List.get?_eq_getElem?]
          exact hcI
        have hsel : selectKeepGo chunks (F :: rest) I FC =
            match selectKeepGo chunks rest
                (if c.end_ ≤ FC then I + 1 else I) (FC + 1) with
            | none => none
            | some keep => some (if c.begin_ ≤ FC ∧ FC ≤ c.end_
                then F.name :: keep else keep) := by
          simp [selectKeepGo, hd, hcI2]
        have hspec : keptNamesSpec chunks (headers (F :: rest)) FC =
            if inSomeChunk chunks FC
              then F.name :: keptNamesSpec chunks (headers rest) (FC + 1)
              else keptNamesSpec chunks (headers rest) (FC + 1) := by
          simp [headers, keptNamesSpec, hd]
        have hrec : selectKeepGo chunks rest
            (if c.end_ ≤ FC then I + 1 else I) (FC + 1) =
            some (keptNamesSpec chunks (headers rest) (FC + 1)) := by
          by_cases hinc : c.end_ ≤ FC
          · rw [if_pos hinc]
            apply ih (I + 1) (FC + 1) (by omega) (by push_cast at hN ⊢; omega)
            · intro j c' hj hg
              rcases Nat.lt_succ_iff_lt_or_eq.mp hj with hj' | hj'
              · have := inv1 j c' hj' hg
                omega
              · subst hj'
                have : c' = c := Option.some.inj (by rw [← hg, hcI])
                rw [this]
                omega
            · intro c' hg
              have hj1 : I + 1 < chunks.length := (List.get?_eq_some.mp hg).1
              have hpw : c.end_ < c'.begin_ := by
                have hlt : (⟨I, hIlt⟩ : Fin chunks.length) < ⟨I + 1, hj1⟩ := by
                  simp [Fin.lt_def]
                have hpw2 := List.pairwise_iff_get.mp hasc ⟨I, hIlt⟩ ⟨I + 1, hj1⟩ hlt
                have hgI : chunks.get ⟨I, hIlt⟩ = c := by
                  have h2 := List.get?_eq_get hIlt
                  rw [hcI] at h2
                  exact (Option.some.inj h2).symm
                have hgI1 : chunks.get ⟨I + 1, hj1⟩ = c' := by
                  have h2 := List.get?_eq_get hj1
                  rw [hg] at h2
                  exact (Option.some.inj h2).symm
                rw [hgI, hgI1] at hpw2
                exact hpw2
              have hwfc' := hwf c' (List.get?_mem hg)
              omega
          · rw [if_neg hinc]
            apply ih I (FC + 1) (by omega) (by push_cast at hN ⊢; omega)
            · intro j c' hj hg
              have := inv1 j c' hj hg
              omega
            · intro c' hg
              have : c' = c := Option.some.inj (by rw [← hg, hcI])
              rw [this]
              omega
        rw [hsel, hrec, hspec, hmem]
        by_cases hfin : c.begin_ ≤ FC ∧ FC ≤ c.end_ <;> simp [hfin]

/-- Header-level form of keepFilterSpecGo. -/
def keepHdrSpec (chunks : List Chunk) : List (String × Bool) → Int → List (String × Bool)
  | [], _ => []
  | (n, d) :: rest, FC =>
    if d then (n, d) :: keepHdrSpec chunks rest FC
    else if inSomeChunk chunks FC then (n, d) :: keepHdrSpec chunks rest (FC + 1)
    else keepHdrSpec chunks rest (FC + 1)

theorem headers_nil : headers [] = [] := rfl

theorem headers_cons (F : Function) (rest : List Function) :
    headers (F :: rest) = (F.name, F.isDeclaration) :: headers rest := rfl

theorem headers_fst (m : Module) :
    (headers m).map Prod.fst = m.map Function.name := by
  simp [headers, List.map_map]

theorem headers_keepFilterSpecGo (chunks : List Chunk) :
    ∀ (fs : List Function) (FC : Int),
      headers (keepFilterSpecGo chunks fs FC) = keepHdrSpec chunks (headers fs) FC := by
  intro fs
  induction fs with
  | nil => intro FC; simp [keepFilterSpecGo, keepHdrSpec, headers]
  | cons F rest ih =>
    intro FC
    by_cases hd : F.isDeclaration
    · simp [keepFilterSpecGo, keepHdrSpec, headers_cons, hd, ih FC] <;> rfl
    · by_cases hin : inSomeChunk chunks FC <;>
        simp [keepFilterSpecGo, keepHdrSpec, headers_cons, hd, hin, ih (FC + 1)] <;> rfl

theorem keptNamesSpec_subset (chunks : List Chunk) :
    ∀ (hdrs : List (String × Bool)) (FC : Int) (x : String),
      x ∈ keptNamesSpec chunks hdrs FC → x ∈ hdrs.map Prod.fst := by
  intro hdrs
  induction hdrs with
  | nil => intro FC x h; simp [keptNamesSpec] at h
  | cons p rest ih =>
    intro FC x h
    obtain ⟨n, d⟩ := p
    by_cases hd : d
    · rw [keptNamesSpec, if_pos hd] at h
      exact List.mem_cons_of_mem _ (ih FC x h)
    · rw [keptNamesSpec, if_neg hd] at h
      by_cases hin : inSomeChunk chunks FC
      · rw [if_pos hin] at h
        rcases List.mem_cons.mp h with he | h2
        · simp [he]
        · exact List.mem_cons_of_mem _ (ih (FC + 1) x h2)
      · rw [if_neg hin] at h
        exact List.mem_cons_of_mem _ (ih (FC + 1) x h)

theorem removeNamesSpec_subset (keep : List String)
    (hdrs : List (String × Bool)) (x : String)
    (h : x ∈ removeNamesSpec keep hdrs) : x ∈ hdrs.map Prod.fst := by
  rcases List.mem_map.mp h with ⟨p, hp, he⟩
  exact he ▸ List.mem_map_of_mem Prod.fst (List.mem_of_mem_filter hp)

theorem removeNamesSpec_cons_notmem (n : String) (keep : List String)
    (hdrs : List (String × Bool)) (h : n ∉ hdrs.map Prod.fst) :
    removeNamesSpec (n :: keep) hdrs = removeNamesSpec keep hdrs := by
  rw [removeNamesSpec, removeNamesSpec]
  congr 1
  apply List.filter_congr
  intro p hp
  have hne : p.1 ≠ n := by
    intro he
    exact h (he ▸ List.mem_map_of_mem Prod.fst hp)
  simp [List.mem_cons, hne]

theorem filter_remove_eq_keepHdrSpec (chunks : List Chunk) :
    ∀ (hdrs : List (String × Bool)) (FC : Int),
      (hdrs.map Prod.fst).Nodup →
      hdrs.filter
          (fun p => !decide
            (p.1 ∈ removeNamesSpec (keptNamesSpec chunks hdrs FC) hdrs)) =
        keepHdrSpec chunks hdrs FC := by
  intro hdrs
  induction hdrs with
  | nil => intro FC _; simp [keepHdrSpec]
  | cons p rest ih =>
    intro FC hnd
    obtain ⟨n, d⟩ := p
    rw [List.map_cons, List.nodup_cons] at hnd
    have hn : n ∉ rest.map Prod.fst := hnd.1
    by_cases hd : d
    · have hK : keptNamesSpec chunks ((n, d) :: rest) FC =
          keptNamesSpec chunks rest FC := by
        rw [keptNamesSpec, if_pos hd]
      have hR : removeNamesSpec (keptNamesSpec chunks rest FC) ((n, d) :: rest) =
          removeNamesSpec (keptNamesSpec chunks rest FC) rest := by
        rw [removeNamesSpec, removeNamesSpec, List.filter_cons]
        simp [hd]
      have hnR : n ∉ removeNamesSpec (keptNamesSpec chunks rest FC) rest := by
        intro hmem
        exact hn (removeNamesSpec_subset _ _ _ hmem)
      rw [hK, hR]
      simp [List.filter_cons, hnR, keepHdrSpec, hd, ih FC hnd.2]
    · by_cases hin : inSomeChunk chunks FC
      · have hK : keptNamesSpec chunks ((n, d) :: rest) FC =
            n :: keptNamesSpec chunks rest (FC + 1) := by
          rw [keptNamesSpec, if_neg hd, if_pos hin]
        have hnK : n ∉ keptNamesSpec chunks rest (FC + 1) := by
          intro hmem
          exact hn (keptNamesSpec_subset chunks rest (FC + 1) n hmem)
        have hR : removeNamesSpec (n :: keptNamesSpec chunks rest (FC + 1))
              ((n, d) :: rest) =
            removeNamesSpec (keptNamesSpec chunks rest (FC + 1)) rest := by
          rw [removeNamesSpec, List.filter_cons]
          have : (!d && !decide (n ∈ n :: keptNamesSpec chunks rest (FC + 1))) = false := by
            simp
          rw [this]
          simp only [Bool.false_eq_true, if_neg, ite_false]
          exact removeNamesSpec_cons_notmem n _ rest hn
        have hnR : n ∉ removeNamesSpec (keptNamesSpec chunks rest (FC + 1)) rest := by
          intro hmem
          exact hn (removeNamesSpec_subset _ _ _ hmem)
        rw [hK, hR]
        simp [List.filter_cons, hnR, keepHdrSpec, hd, hin, ih (FC + 1) hnd.2]
      · have hK : keptNamesSpec chunks ((n, d) :: rest) FC =
            keptNamesSpec chunks rest (FC + 1) := by
          rw [keptNamesSpec, if_neg hd, if_neg hin]
        have hnK : n ∉ keptNamesSpec chunks rest (FC + 1) := by
          intro hmem
          exact hn (keptNamesSpec_subset chunks rest (FC + 1) n hmem)
        have hR : removeNamesSpec (keptNamesSpec chunks rest (FC + 1))
              ((n, d) :: rest) =
            n :: removeNamesSpec (keptNamesSpec chunks rest (FC + 1)) rest := by
          rw [removeNamesSpec, List.filter_cons]
          have : (!d && !decide (n ∈ keptNamesSpec chunks rest (FC + 1))) = true := by
            simp [hd, hnK]
          rw [this]
          simp [removeNamesSpec]
        rw [hK, hR]
        have hcongr : rest.filter
            (fun p => !decide (p.1 ∈
              n :: removeNamesSpec (keptNamesSpec chunks rest (FC + 1)) rest)) =
            rest.filter
            (fun p => !decide (p.1 ∈
              removeNamesSpec (keptNamesSpec chunks rest (FC + 1)) rest)) := by
          apply List.filter_congr
          intro q hq
          have hne : q.1 ≠ n := by
            intro he
            exact hn (he ▸ List.mem_map_of_mem Prod.fst hq)
          simp [List.mem_cons, hne]
        simp only [List.filter_cons]
        have hhead : (!decide ((n, d).1 ∈
            n :: removeNamesSpec (keptNamesSpec chunks rest (FC + 1)) rest)) = false := by
          simp
        rw [hhead]
        simp only [Bool.false_eq_true, ite_false]
        rw [hcongr, keepHdrSpec, if_neg hd, if_neg hin]
        exact ih (FC + 1) hnd.2

theorem headers_filter_notmem (R : List String) :
    ∀ m : Module,
      headers (m.filter (fun F => !decide (F.name ∈ R))) =
        (headers m).filter (fun p => !decide (p.1 ∈ R)) := by
  intro m
  induction m with
  | nil => simp [headers]
  | cons F rest ih =>
    by_cases hq : F.name ∈ R <;>
      simp [List.filter_cons, headers_cons, hq, ih]

theorem names_patchAllUses (R : List String) (m : Module) :
    (patchAllUses R m).map Function.name = m.map Function.name := by
  rw [← headers_fst, headers_patchAllUses, headers_fst]

theorem namesUnique_patchAllUses (R : List String) (m : Module)
    (h : NamesUnique m) : NamesUnique (patchAllUses R m) := by
  rw [NamesUnique, names_patchAllUses]
  exact h

theorem keepHdrSpec_preserves_decls (chunks : List Chunk) :
    ∀ (hdrs : List (String × Bool)) (FC : Int) (n : String),
      (n, true) ∈ hdrs → (n, true) ∈ keepHdrSpec chunks hdrs FC := by
  intro hdrs
  induction hdrs with
  | nil => intro FC n h; simp at h
  | cons p rest ih =>
    intro FC n h
    obtain ⟨n', d⟩ := p
    rcases List.mem_cons.mp h with he | h2
    · injection he with h1 h2
      subst h1
      have hd : d = true := h2.symm
      subst hd
      rw [keepHdrSpec, if_pos rfl]
      exact List.mem_cons_self _ _
    · by_cases hd : d
      · rw [keepHdrSpec, if_pos hd]
        exact List.mem_cons_of_mem _ (ih FC n h2)
      · rw [keepHdrSpec, if_neg hd]
        by_cases hin : inSomeChunk chunks FC
        · rw [if_pos hin]
          exact List.mem_cons_of_mem _ (ih (FC + 1) n h2)
        · rw [if_neg hin]
          exact ih (FC + 1) n h2

theorem extract_headers_spec (chunks : List Chunk) (m : Module)
    (hu : NamesUnique m)
    (hwf : chunksWithin chunks (getTargetCount m))
    (hasc : chunksAscending chunks)
    (hcov : chunksCoverLast chunks (getTargetCount m)) :
    ∃ m', extractChunksFromModule chunks m = some m' ∧
      headers m' = keepHdrSpec chunks (headers m) 1 := by
  have hN := getTargetCount_eq_countDefined m
  have hsel : selectKeep chunks m = some (keptNamesSpec chunks (headers m) 1) := by
    apply selectKeepGo_eq chunks (getTargetCount m) hwf hasc hcov m 0 1 le_rfl
    · rw [hN]
      push_cast
      omega
    · intro j c hj _
      exact absurd hj (Nat.not_lt_zero j)
    · intro c hg
      have := hwf c (List.get?_mem hg)
      omega
  refine ⟨sweepModule (eraseFunctions
      (removeNamesSpec (keptNamesSpec chunks (headers m) 1) (headers m))
      (patchAllUses (removeNamesSpec (keptNamesSpec chunks (headers m) 1) (headers m)) m)),
    ?_, ?_⟩
  · rw [extractChunksFromModule]
    simp only [cloneModule] at hsel ⊢
    rw [hsel]
    simp only [rauwCollect_eq, foldl_rauw_eq_patchAllUses]
  · rw [headers_sweepModule,
      eraseFunctions_eq_filter _ _ (namesUnique_patchAllUses _ m hu),
      headers_filter_notmem, headers_patchAllUses]
    exact filter_remove_eq_keepHdrSpec chunks (headers m) 1
      (by rw [headers_fst]; exact hu)

theorem countDefined_headers : ∀ m : Module,
    countDefined m = ((headers m).filter (fun p => !p.2)).length := by
  intro m
  induction m with
  | nil => simp [countDefined, headers]
  | cons F rest ih =>
    by_cases hd : F.isDeclaration <;>
      simp [countDefined, headers_cons, List.filter_cons, hd] <;>
      simp [countDefined] at ih <;> omega

theorem keepHdrSpec_count_le (chunks : List Chunk) :
    ∀ (hdrs : List (String × Bool)) (FC : Int),
      ((keepHdrSpec chunks hdrs FC).filter (fun p => !p.2)).length ≤
        (hdrs.filter (fun p => !p.2)).length := by
  intro hdrs
  induction hdrs with
  | nil => intro FC; simp [keepHdrSpec]
  | cons p rest ih =>
    intro FC
    obtain ⟨n, d⟩ := p
    by_cases hd : d
    · simp only [keepHdrSpec, if_pos hd, List.filter_cons]
      by_cases hb : (!d) = true
      · simp only [hb, if_pos]
        simp only [List.length_cons]
        exact Nat.succ_le_succ (ih FC)
      · simp only [hb, Bool.false_eq_true, ite_false]
        exact ih FC
    · have hb : (!d) = true := by simp [hd]
      simp only [keepHdrSpec, if_neg hd]
      by_cases hin : inSomeChunk chunks FC
      · simp only [if_pos hin, List.filter_cons, hb, if_pos, List.length_cons]
        exact Nat.succ_le_succ (ih (FC + 1))
      · simp only [if_neg hin, List.filter_cons, hb, if_pos, List.length_cons]
        exact Nat.le_succ_of_le (ih (FC + 1))

theorem keepHdrSpec_count_lt (chunks : List Chunk) :
    ∀ (hdrs : List (String × Bool)) (FC j : Int),
      FC ≤ j → j < FC + ((hdrs.filter (fun p => !p.2)).length : Int) →
      inSomeChunk chunks j = false →
      ((keepHdrSpec chunks hdrs FC).filter (fun p => !p.2)).length <
        (hdrs.filter (fun p => !p.2)).length := by
  intro hdrs
  induction hdrs with
  | nil =>
    intro FC j h1 h2 _
    simp at h2
    omega
  | cons p rest ih =>
    intro FC j h1 h2 hout
    obtain ⟨n, d⟩ := p
    by_cases hd : d
    · have hb : (!d) = false := by simp [hd]
      simp only [keepHdrSpec, if_pos hd, List.filter_cons, hb,
        Bool.false_eq_true, ite_false]
      apply ih FC j h1 _ hout
      simp only [List.filter_cons, hb, Bool.false_eq_true, ite_false] at h2
      exact h2
    · have hb : (!d) = true := by simp [hd]
      have hlen : ((((n, d) :: rest).filter (fun p => !p.2)).length : Int) =
          ((rest.filter (fun p => !p.2)).length : Int) + 1 := by
        simp [List.filter_cons, hb]
      by_cases hin : inSomeChunk chunks FC
      · have hne : j ≠ FC := by
          intro he
          rw [he] at hout
          rw [hout] at hin
          exact Bool.false_ne_true hin
        simp only [keepHdrSpec, if_neg hd, if_pos hin, List.filter_cons, hb,
          if_pos, List.length_cons]
        apply Nat.succ_lt_succ
        apply ih (FC + 1) j (by omega) _ hout
        rw [hlen] at h2
        omega
      · simp only [keepHdrSpec, if_neg hd, if_neg hin, List.filter_cons, hb,
          if_pos, List.length_cons]
        calc ((keepHdrSpec chunks rest (FC + 1)).filter (fun p => !p.2)).length
            ≤ (rest.filter (fun p => !p.2)).length := keepHdrSpec_count_le chunks rest (FC + 1)
          _ < (rest.filter (fun p => !p.2)).length + 1 := Nat.lt_succ_self _

/-! Lemmas about the bisection engine. -/

theorem computeChunks_length (N K : Nat) : (computeChunks N K).length = K := by
  rw [computeChunks, List.length_map, List.length_range]

theorem trySweep_some {α : Type} (P : Pass α) (oracle : α → Bool) (best : α) :
    ∀ (l : List (List Chunk)) (c : α), trySweep P oracle best l = some c →
      ∃ kept ∈ l, c = P.reduce best kept ∧ oracle c = true := by
  intro l
  induction l with
  | nil => intro c h; simp [trySweep] at h
  | cons kept rest ih =>
    intro c h
    rw [trySweep] at h
    by_cases ho : oracle (P.reduce best kept) = true
    · rw [if_pos ho] at h
      have hc : c = P.reduce best kept := (Option.some.inj h).symm
      exact ⟨kept, List.mem_cons_self _ _, hc, hc ▸ ho⟩
    · rw [if_neg ho] at h
      obtain ⟨k, hk, he, hor⟩ := ih c h
      exact ⟨k, List.mem_cons_of_mem _ hk, he, hor⟩

theorem keptSets_mem (chunks : List Chunk) (kept : List Chunk)
    (h : kept ∈ keptSets chunks) :
    ∃ i, i < chunks.length ∧ kept = chunks.eraseIdx i := by
  rcases List.mem_map.mp h with ⟨i, hi, he⟩
  exact ⟨i, List.mem_range.mp hi, he.symm⟩

theorem sweep_success_decreases {α : Type} (P : Pass α) (oracle : α → Bool)
    (hdec : PassDec P) (best c : α) (K : Nat) (h2 : 2 ≤ K)
    (hK : K ≤ P.countTargets best)
    (hs : trySweep P oracle best
        (keptSets (computeChunks (P.countTargets best) K)) = some c) :
    P.countTargets c < P.countTargets best := by
  obtain ⟨kept, hkept, he, _⟩ := trySweep_some P oracle best _ c hs
  obtain ⟨i, hi, hei⟩ := keptSets_mem _ _ hkept
  rw [computeChunks_length] at hi
  rw [he, hei]
  exact hdec best K i h2 hK hi

theorem engineGo_le {α : Type} (P : Pass α) (oracle : α → Bool)
    (hdec : PassDec P) :
    ∀ (fuel : Nat) (best : α) (K : Nat) (r : α), 2 ≤ K →
      engineGo P oracle fuel best K = some r →
      P.countTargets r ≤ P.countTargets best := by
  intro fuel
  induction fuel with
  | zero => intro best K r _ h; simp [engineGo] at h
  | succ fuel ih =>
    intro best K r h2 h
    rw [engineGo] at h
    by_cases hK : K ≤ P.countTargets best
    · rw [if_pos hK] at h
      cases hs : trySweep P oracle best
          (keptSets (computeChunks (P.countTargets best) K)) with
      | some newBest =>
        rw [hs] at h
        have hlt := sweep_success_decreases P oracle hdec best newBest K h2 hK hs
        have := ih newBest 2 r le_rfl h
        omega
      | none =>
        rw [hs] at h
        exact ih best (K * 2) r (by omega) h
    · rw [if_neg hK] at h
      have : r = best := (Option.some.inj h).symm
      rw [this]

/-- C1 (amended): for every module with the LLVM unique-name invariant and
every kept chunk set that is an ascending, non-overlapping sequence of
nonempty ranges within [1, N] (N the number of defined functions) whose last
chunk reaches index N, the candidate returned by extractChunksFromModule
contains exactly the defined functions whose 1-based definition-order index
lies inside some kept chunk, and every declaration survives.  The reach-N
side condition is forced by the out-of-bounds counterexample below: without
it the C++ indexes ChunksToKeep past its end. -/
theorem extract_keeps_exactly_inchunk (chunks : List Chunk) (m : Module)
    (hu : NamesUnique m)
    (hwf : chunksWithin chunks (getTargetCount m))
    (hasc : chunksAscending chunks)
    (hcov : chunksCoverLast chunks (getTargetCount m)) :
    ∃ m', extractChunksFromModule chunks m = some m' ∧
      headers m' = headers (keepFilterSpec chunks m) ∧
      (∀ F ∈ m, F.isDeclaration = true → (F.name, true) ∈ headers m') := by
  obtain ⟨m', he, hh⟩ := extract_headers_spec chunks m hu hwf hasc hcov
  refine ⟨m', he, ?_, ?_⟩
  · rw [hh, keepFilterSpec, headers_keepFilterSpecGo]
  · intro F hF hdecl
    rw [hh]
    apply keepHdrSpec_preserves_decls
    have hmem : (F.name, F.isDeclaration) ∈ headers m :=
      List.mem_map_of_mem _ hF
    rw [hdecl] at hmem
    exact hmem

/-- C1 counterexample: the kept chunk set [1,1] is ascending,
non-overlapping and lies within [1, N] for the two-function module
(N = 2), yet the pass returns no candidate at all: after the first
defined function the cursor walks past the end of ChunksToKeep and the
C++ reads ChunksToKeep[1] out of bounds, so no candidate containing
exactly function f1 is produced. -/
theorem extract_oob_on_uncovered_last_index :
    chunksWithin [⟨1, 1⟩] (getTargetCount twoFunModule) ∧
    chunksAscending [⟨1, 1⟩] ∧
    extractChunksFromModule [⟨1, 1⟩] twoFunModule = none :=
  ⟨by decide, by decide, by decide⟩

/-- Witness for the amended C1 at a concrete input: keeping chunks [1,1]
and [3,3] of a four-function module (three defined, one declaration)
keeps exactly f1, the declaration d1 and f3. -/
theorem extract_keeps_exactly_inchunk_witness :
    NamesUnique mixedModule ∧
    chunksWithin [⟨1, 1⟩, ⟨3, 3⟩] (getTargetCount mixedModule) ∧
    chunksAscending [⟨1, 1⟩, ⟨3, 3⟩] ∧
    chunksCoverLast [⟨1, 1⟩, ⟨3, 3⟩] (getTargetCount mixedModule) ∧
    (∃ m', extractChunksFromModule [⟨1, 1⟩, ⟨3, 3⟩] mixedModule = some m' ∧
      headers m' = headers (keepFilterSpec [⟨1, 1⟩, ⟨3, 3⟩] mixedModule) ∧
      (∀ F ∈ mixedModule, F.isDeclaration = true → (F.name, true) ∈ headers m')) := by
  have hu : NamesUnique mixedModule := by decide
  have hwf : chunksWithin [⟨1, 1⟩, ⟨3, 3⟩] (getTargetCount mixedModule) := by decide
  have hasc : chunksAscending [⟨1, 1⟩, ⟨3, 3⟩] := by decide
  have hcov : chunksCoverLast [⟨1, 1⟩, ⟨3, 3⟩] (getTargetCount mixedModule) :=
    Or.inr ⟨⟨3, 3⟩, rfl, by decide⟩
  exact ⟨hu, hwf, hasc, hcov,
    extract_keeps_exactly_inchunk [⟨1, 1⟩, ⟨3, 3⟩] mixedModule hu hwf hasc hcov⟩

/-- C2 (code-bug evidence): reduce with an empty kept chunk set is not
total.  On a module with a single defined function the C++ reads
ChunksToKeep[0] of the empty vector before any in-chunk test can fail;
the embedding returns none where the claim requires a valid module with
zero defined functions. -/
theorem extract_empty_chunks_oob :
    extractChunksFromModule [] oneFunModule = none := by decide

/-- C4 (amended): whenever the kept chunk set is well-formed (ascending,
nonempty in-range chunks whose last chunk reaches N, the condition forced
by the out-of-bounds counterexample) and leaves out at least one in-range
defined-function index, the candidate has strictly fewer target units than
the input; and across every run of the bisection engine the target count of
best is non-increasing, for every pass satisfying the reduce contract. -/
theorem candidate_strictly_smaller :
    (∀ (chunks : List Chunk) (m : Module),
      NamesUnique m →
      chunksWithin chunks (getTargetCount m) →
      chunksAscending chunks →
      chunksCoverLast chunks (getTargetCount m) →
      (∃ j : Int, 1 ≤ j ∧ j ≤ getTargetCount m ∧ inSomeChunk chunks j = false) →
      ∃ m', extractChunksFromModule chunks m = some m' ∧
        getTargetCount m' < getTargetCount m) ∧
    (∀ (α : Type) (P : Pass α) (oracle : α → Bool) (fuel K : Nat) (best r : α),
      PassDec P → 2 ≤ K →
      engineGo P oracle fuel best K = some r →
      P.countTargets r ≤ P.countTargets best) := by
  constructor
  · intro chunks m hu hwf hasc hcov hj
    obtain ⟨j, hj1, hj2, hjout⟩ := hj
    obtain ⟨m', he, hh⟩ := extract_headers_spec chunks m hu hwf hasc hcov
    refine ⟨m', he, ?_⟩
    rw [getTargetCount_eq_countDefined, getTargetCount_eq_countDefined,
      countDefined_headers m', countDefined_headers m, hh]
    have hlt : ((keepHdrSpec chunks (headers m) 1).filter (fun p => !p.2)).length <
        ((headers m).filter (fun p => !p.2)).length := by
      apply keepHdrSpec_count_lt chunks (headers m) 1 j hj1 _ hjout
      rw [getTargetCount_eq_countDefined, countDefined_headers m] at hj2
      omega
    exact_mod_cast hlt
  · intro α P oracle fuel K best r hdec h2 h
    exact engineGo_le P oracle hdec fuel best K r h2 h

/-- C4 counterexample: the kept chunk set [1,1] omits the chunk holding
defined functions 2 and 3 of the three-function module, so the claim
demands a candidate with strictly fewer target units; instead the pass
walks its chunk cursor out of bounds and produces no candidate. -/
theorem extract_no_candidate_when_last_uncovered :
    chunksWithin [⟨1, 1⟩] (getTargetCount threeFunModule) ∧
    chunksAscending [⟨1, 1⟩] ∧
    inSomeChunk [⟨1, 1⟩] 2 = false ∧
    extractChunksFromModule [⟨1, 1⟩] threeFunModule = none :=
  ⟨by decide, by decide, by decide, by decide⟩

/-- Witness for C4 at concrete inputs: keeping chunk [2,3] of the
three-function module drops g1 and leaves 2 of 3 target units; and a
terminating engine run on the unit-dropping pass never increases the
count. -/
theorem candidate_strictly_smaller_witness :
    (∃ m', extractChunksFromModule [⟨2, 3⟩] threeFunModule = some m' ∧
      getTargetCount m' < getTargetCount threeFunModule) ∧
    natPass.countTargets 3 ≤ natPass.countTargets 3 := by
  constructor
  · exact candidate_strictly_smaller.1 [⟨2, 3⟩] threeFunModule
      (by decide) (by decide) (by decide)
      (Or.inr ⟨⟨2, 3⟩, rfl, by decide⟩)
      ⟨1, by decide, by decide, by decide⟩
  · exact candidate_strictly_smaller.2 Nat natPass (fun _ => false) 3 2 3 3
      (by intro a K i hK ha hi
          simp only [natPass] at ha ⊢
          omega)
      le_rfl (by decide)

theorem engineGo_halts_aux {α : Type} (P : Pass α) (oracle : α → Bool)
    (hdec : PassDec P) :
    ∀ n : Nat, ∀ (best : α) (K fuel : Nat),
      P.countTargets best = n → 2 ≤ K →
      (n + 2 - K) + n * (n + 1) + 1 ≤ fuel →
      ∃ r, engineGo P oracle fuel best K = some r := by
  intro n
  induction n using Nat.strong_induction_on with
  | _ n IH =>
    suffices h : ∀ d : Nat, ∀ (best : α) (K fuel : Nat),
        P.countTargets best = n → 2 ≤ K → n + 2 - K ≤ d →
        d + n * (n + 1) + 1 ≤ fuel →
        ∃ r, engineGo P oracle fuel best K = some r by
      intro best K fuel hn h2 hf
      exact h (n + 2 - K) best K fuel hn h2 le_rfl hf
    intro d
    induction d with
    | zero =>
      intro best K fuel hn h2 hd hf
      obtain ⟨f, rfl⟩ : ∃ f, fuel = f + 1 := ⟨fuel - 1, by omega⟩
      rw [engineGo]
      have hK : ¬ (K ≤ P.countTargets best) := by omega
      rw [if_neg hK]
      exact ⟨best, rfl⟩
    | succ d ihd =>
      intro best K fuel hn h2 hd hf
      obtain ⟨f, rfl⟩ : ∃ f, fuel = f + 1 := ⟨fuel - 1, by omega⟩
      rw [engineGo]
      by_cases hK : K ≤ P.countTargets best
      · rw [if_pos hK]
        cases hs : trySweep P oracle best
            (keptSets (computeChunks (P.countTargets best) K)) with
        | some newBest =>
          have hlt : P.countTargets newBest < n := by
            rw [← hn]
            exact sweep_success_decreases P oracle hdec best newBest K h2 hK hs
          apply IH (P.countTargets newBest) hlt newBest 2 f rfl le_rfl
          have e1 : P.countTargets newBest + 2 - 2 = P.countTargets newBest := by
            omega
          rw [e1]
          have heq : P.countTargets newBest + P.countTargets newBest *
              (P.countTargets newBest + 1) + 1 =
              (P.countTargets newBest + 1) * (P.countTargets newBest + 1) := by
            ring
          have h1 : (P.countTargets newBest + 1) * (P.countTargets newBest + 1) ≤
              n * n := Nat.mul_le_mul hlt hlt
          have h2' : n * n ≤ n * (n + 1) := Nat.mul_le_mul_left n (Nat.le_succ n)
          omega
        | none =>
          apply ihd best (K * 2) f hn (by omega) (by omega) (by omega)
      · rw [if_neg hK]
        exact ⟨best, rfl⟩

/-- C5: the bisection engine of section 4.4 halts for every pass satisfying
the reduce contract and every oracle, after a number of steps (and hence of
oracle calls) bounded in the initial target count: every successful removal
strictly decreases the count, every fully unsuccessful sweep doubles the
granularity which the count bounds, so fuel quadratic in the count never
runs out. -/
theorem bisection_engine_halts {α : Type} (P : Pass α) (oracle : α → Bool)
    (best : α) (hdec : PassDec P) :
    ∃ r, engine P oracle
        ((P.countTargets best + 1) * (P.countTargets best + 1)) best = some r := by
  rw [engine]
  apply engineGo_halts_aux P oracle hdec (P.countTargets best) best 2 _ rfl le_rfl
  have e1 : P.countTargets best + 2 - 2 = P.countTargets best := by omega
  rw [e1]
  have heq : P.countTargets best + P.countTargets best * (P.countTargets best + 1) + 1 =
      (P.countTargets best + 1) * (P.countTargets best + 1) := by ring
  omega

/-- Witness for C5: the engine on the unit-dropping pass with an
always-interesting oracle halts from count 3 within the stated fuel. -/
theorem bisection_engine_halts_witness :
    ∃ r, engine natPass (fun _ => true)
        ((natPass.countTargets 3 + 1) * (natPass.countTargets 3 + 1)) 3 = some r :=
  bisection_engine_halts natPass (fun _ => true) 3
    (by intro a K i hK ha hi
        simp only [natPass] at ha ⊢
        omega)

/-- C6: getTargetCount is a pure, stable function of the module: in the
state-passing embedding it returns the module unchanged, a second call on
that returned state yields the same value, and the value is the number of
non-declaration functions. -/
theorem getTargetCount_pure_stable :
    ∀ m : Module,
      (getTargetCountS m).2 = m ∧
      (getTargetCountS ((getTargetCountS m).2)).1 = (getTargetCountS m).1 ∧
      getTargetCount m = ((m.filter (fun F => !F.isDeclaration)).length : Int) := by
  intro m
  refine ⟨rfl, rfl, ?_⟩
  rw [getTargetCount_eq_countDefined, countDefined]

/-- C7: reduce does not mutate its input.  Every phase of
extractChunksFromModule acts on the clone made on entry; in the
state-passing embedding the input module comes back unchanged and the
candidate is a function of the clone alone. -/
theorem extract_does_not_mutate_input :
    ∀ (ChunksToKeep : List Chunk) (Program : Module),
      (extractChunksFromModuleS ChunksToKeep Program).2 = Program ∧
      (extractChunksFromModuleS ChunksToKeep Program).1 =
        extractChunksFromModule ChunksToKeep (cloneModule Program) :=
  fun _ _ => ⟨rfl, rfl⟩

/-- C8 (code-bug evidence): on an input that fails to parse (or fails the
verifier), parseInputFile prints its diagnostic and returns null, but main
performs no null check: it creates the temporary directory, installs the
null program in the test runner and invokes runDeltaPasses anyway.  The run
does not abort before the reduction attempt. -/
theorem main_runs_passes_on_parse_failure :
    mainFlow .parseFails "in.ll" false "" "in.ll" =
      [.printedParseError, .createdTmpDir, .ranDeltaPasses false,
        .printedCouldNotReduce] ∧
    DriverEvent.ranDeltaPasses false ∈
      mainFlow .parseFails "in.ll" false "" "in.ll" ∧
    DriverEvent.ranDeltaPasses false ∈
      mainFlow (.verifyFails oneFunModule) "in.ll" false "" "in.ll" := by
  refine ⟨by decide, by decide, by decide⟩

/-- C9 counterexample: the original input "dir/in.ll" was never reduced
(the reduced filepath still names it), so the claim requires the
no-reduction report and no file write; the driver instead compares the
filename component "in.ll" against the full input string "dir/in.ll",
copies the unreduced input to reduced.ll and reports success. -/
theorem driver_writes_output_for_unreduced_qualified_input :
    driverFinishEvents "dir/in.ll" false "" "dir/in.ll" =
      [.copiedFile "dir/in.ll" "reduced.ll", .printedDoneReducing "reduced.ll"] := by
  decide

/-- C9 (amended): the driver reports that no reduction could be performed,
and writes nothing, exactly when the filename component of the final
reduced filepath equals the input filename string; in every other case it
copies the reduced artifact to the resolved output path (the input for
in-place, reduced.ll when unset, the given name with .ll appended) and
reports that path. -/
theorem driver_finish_characterization :
    ∀ (inputF : String) (inPlace : Bool) (outputF reducedF : String),
      (driverFinishEvents inputF inPlace outputF reducedF =
          [.printedCouldNotReduce] ↔ pathFilename reducedF = inputF) ∧
      (pathFilename reducedF ≠ inputF →
        driverFinishEvents inputF inPlace outputF reducedF =
          [.copiedFile reducedF
              (if inPlace then inputF
                else if outputF = "" then "reduced.ll" else outputF ++ ".ll"),
            .printedDoneReducing
              (if inPlace then inputF
                else if outputF = "" then "reduced.ll" else outputF ++ ".ll")]) := by
  intro i r o rp
  constructor
  · constructor
    · intro h
      by_contra hne
      rw [driverFinishEvents, if_neg hne] at h
      simp at h
    · intro h
      rw [driverFinishEvents, if_pos h]
  · intro hne
    rw [driverFinishEvents, if_neg hne]

/-- Witness for the amended C9: a reduced file tmp/out.ll distinct from the
input in.ll is copied to the default output and reported. -/
theorem driver_finish_characterization_witness :
    driverFinishEvents "in.ll" false "" "tmp/out.ll" =
      [.copiedFile "tmp/out.ll" "reduced.ll", .printedDoneReducing "reduced.ll"] := by
  have h := (driver_finish_characterization "in.ll" false "" "tmp/out.ll").2 (by decide)
  simpa using h

/-- C10: after reduce, no call with a statically unresolvable callee
survives — the sweep removes every such call, indirect calls included, with
the removed call results patched to undef first; consequently reduce with a
kept chunk set covering every target unit is not the identity on a module
holding an indirect call. -/
theorem sweep_deletes_all_unresolvable_calls :
    (∀ (chunks : List Chunk) (m m' : Module),
      extractChunksFromModule chunks m = some m' →
      ∀ F ∈ m', ∀ bb ∈ F.blocks, ∀ i ∈ bb, isUndefCall i = false) ∧
    (extractChunksFromModule [⟨1, 1⟩] indirectCallModule = some indirectCallReduced ∧
      indirectCallReduced ≠ indirectCallModule) := by
  constructor
  · intro chunks m m' he F hF bb hbb i hi
    rw [extractChunksFromModule] at he
    cases hsel : selectKeep chunks (cloneModule m) with
    | none =>
      rw [hsel] at he
      exact absurd he (by simp)
    | some K =>
      rw [hsel] at he
      have he1 : (match rauwCollect K (headers (cloneModule m)) (cloneModule m) with
          | (patched, FuncsToRemove) =>
            some (sweepModule (eraseFunctions FuncsToRemove patched))) =
          some m' := he
      rw [rauwCollect_eq] at he1
      have he2 : some (sweepModule (eraseFunctions
          (removeNamesSpec K (headers (cloneModule m)))
          ((removeNamesSpec K (headers (cloneModule m))).foldl
            (fun acc n => replaceFuncUsesWithUndef n acc) (cloneModule m)))) =
          some m' := he1
      have hm' : sweepModule (eraseFunctions
          (removeNamesSpec K (headers (cloneModule m)))
          ((removeNamesSpec K (headers (cloneModule m))).foldl
            (fun acc n => replaceFuncUsesWithUndef n acc) (cloneModule m))) = m' :=
        Option.some.inj he2
      rw [← hm'] at hF
      rcases List.mem_map.mp hF with ⟨G, _, hFG⟩
      rw [← hFG] at hbb
      simp only [sweepFunction, eraseUndefCalls] at hbb
      rcases List.mem_map.mp hbb with ⟨bb0, _, hbbe⟩
      rw [← hbbe] at hi
      have := (List.mem_filter.mp hi).2
      simpa using this
  · exact ⟨by decide, by decide⟩

/-- Witness for C10: the reduced indirect-call module satisfies the
no-unresolvable-call postcondition. -/
theorem sweep_deletes_all_unresolvable_calls_witness :
    extractChunksFromModule [⟨1, 1⟩] indirectCallModule = some indirectCallReduced ∧
    (∀ F ∈ indirectCallReduced, ∀ bb ∈ F.blocks, ∀ i ∈ bb, isUndefCall i = false) :=
  ⟨by decide,
    sweep_deletes_all_unresolvable_calls.1 [⟨1, 1⟩] indirectCallModule
      indirectCallReduced (by decide)⟩

end LLVMReduce
